import Mathlib

/-!
# Photometric mass of a meteoroid: `photmasscalc.c` and `csvparse.c`

A shallow embedding of the numeric core of `photmass`, `get_tau`,
`get_luminous_intensity`, `get_dt` and `calculate_phot_mass`, and of the
functions that read the measures, `valid_characters`, `parse_csv_line` and
`read_csv_file`.

Modelling conventions.

* A C `double` is an element of a linear ordered field `α` with exact
  arithmetic; rounding, infinities and NaN are not modelled.  The definitions
  are generic in `α`, so they evaluate over `ℚ`.  The statements say which
  formula, branch or fold the code computes; what turns on the rounding,
  overflow or underflow of a `double` is not stated here.
* `pow` of `<math.h>` is not code of the repository: every function that
  calls it takes it as its first argument.  Statements that need facts about
  powers are made at `α = ℝ` with `Real.rpow`.
* The `NULL`-terminated list of `MeasureNode_t` is a `List (Measure_t α)`;
  each `while (node != NULL)` loop is a structural recursion on that list
  carrying the local variables the loop assigns.
* The `int` counter of `get_dt` is a `Nat`: a list is taken to hold fewer
  than `2^31` nodes.
* The `printf` of `calculate_phot_mass` appends a record to an output list.
* Division in a field is total (`x / 0 = 0`); the `_checked` variants return
  `none` when a divisor is zero, and agree with the plain functions whenever
  they return a value.
* `read_csv_file` declares one array `line[g_line_size]` and every `fgets`
  writes into it: the array is a `List Char` that the loop carries from one
  line to the next, with the bytes earlier lines left behind the text and the
  NUL that `parse_csv_line` wrote over the separators.  Its content before
  the first `fgets` is an argument, and so are `atof`, `isalpha` and the
  content of a node fresh from `malloc`.  The file is the `List Char` of its
  characters, and it is taken to open.
* `valid_characters` and `parse_csv_line` receive the array.
  `valid_characters` stops at a newline or a letter wherever it is in the
  array; only a read past the last element of the array gives `none`, and
  then `read_csv_file` gives `none`.
-/

namespace Photmass

variable {α : Type} [LinearOrderedField α]

/-! ## Data model (`photmasstypes.h`) -/

/-- One measure of the light curve: `Measure_t`. -/
structure Measure_t (α : Type) where
  time : α
  magnitude : α
  velocity : α

/-- The four values printed by `calculate_phot_mass` for one node:
`tau = %e, I = %e, v = %e, phot_mass = %e`. -/
structure DiagRecord (α : Type) where
  tau : α
  I : α
  v : α
  phot_mass : α

/-! ## Operations (`photmasscalc.c`) -/

/-- The constant `VELOCITY_CONVERSION_FACTOR = 10000.0`. -/
def VELOCITY_CONVERSION_FACTOR : α := 10000.0

/-- The function `get_tau`: `tau` starts at `1.0` and is overwritten by the
first branch of the `if`/`else if` chain whose test holds. -/
def get_tau (pow : α → α → α) (velocity : α) : α :=
  let tau : α := 1.0
  if velocity ≤ 9.3 then
    pow 10.0 (-12.75)
  else if velocity ≤ 12.5 then
    pow 10.0 (-15.60) * pow velocity 2.92
  else if velocity ≤ 17.0 then
    pow 10.0 (-13.24) * pow velocity 0.77
  else if velocity ≤ 27.0 then
    pow 10.0 (-12.50) * pow velocity 0.17
  else if velocity ≤ 72.0 then
    pow 10.0 (-13.69) * velocity
  else
    tau

/-- The function `get_luminous_intensity`. -/
def get_luminous_intensity (pow : α → α → α) (magnitude : α) : α :=
  let exp := magnitude / (-2.5)
  pow 10.0 exp

/-- The `while` loop of `get_dt`: walks the list, keeping `last_time` and
`num_of_measures`. -/
def get_dt_loop : List (Measure_t α) → α → Nat → α × Nat
  | [], last_time, num_of_measures => (last_time, num_of_measures)
  | node :: next_node, _, num_of_measures =>
      get_dt_loop next_node node.time (num_of_measures + 1)

/-- The function `get_dt`. -/
def get_dt (measures_list : List (Measure_t α)) : α :=
  let first_time : α :=
    match measures_list with
    | [] => 0.0
    | node :: _ => node.time
  let r := get_dt_loop measures_list 0.0 0
  let last_time := r.1
  let num_of_measures := r.2
  if num_of_measures > 0 then
    (last_time - first_time) / (num_of_measures : α)
  else
    1.0

/-- The `while` loop of `calculate_phot_mass`: the state is `phot_mass` and
the lines printed so far. -/
def calculate_phot_mass_loop (pow : α → α → α) (dt : α) :
    List (Measure_t α) → α → List (DiagRecord α) → α × List (DiagRecord α)
  | [], phot_mass, out => (phot_mass, out)
  | node :: next_node, phot_mass, out =>
      let tau := get_tau pow node.velocity
      let I := get_luminous_intensity pow node.magnitude
      let v := node.velocity * VELOCITY_CONVERSION_FACTOR
      let phot_mass := phot_mass + (2 / tau) * ((I / pow v 3.0) * dt)
      calculate_phot_mass_loop pow dt next_node phot_mass
        (out ++ [{ tau := tau, I := I, v := v, phot_mass := phot_mass }])

/-- The function `calculate_phot_mass` with its printed lines: the returned
value and the records in the order they are printed. -/
def calculate_phot_mass_run (pow : α → α → α) (measures_list : List (Measure_t α)) :
    α × List (DiagRecord α) :=
  let dt := get_dt measures_list
  calculate_phot_mass_loop pow dt measures_list 0.0 []

/-- The function `calculate_phot_mass`: the value it returns. -/
def calculate_phot_mass (pow : α → α → α) (measures_list : List (Measure_t α)) : α :=
  (calculate_phot_mass_run pow measures_list).1

/-! ## The same operations with guarded division -/

/-- Division that reports a zero divisor. -/
def checked_div (a b : α) : Option α :=
  if b = 0 then none else some (a / b)

/-- The function `get_dt` with its division guarded. -/
def get_dt_checked (measures_list : List (Measure_t α)) : Option α :=
  let first_time : α :=
    match measures_list with
    | [] => 0.0
    | node :: _ => node.time
  let r := get_dt_loop measures_list 0.0 0
  let last_time := r.1
  let num_of_measures := r.2
  if num_of_measures > 0 then
    checked_div (last_time - first_time) (num_of_measures : α)
  else
    some 1.0

/-- The loop of `calculate_phot_mass` with both divisions of its body
guarded. -/
def calculate_phot_mass_loop_checked (pow : α → α → α) (dt : α) :
    List (Measure_t α) → α → Option α
  | [], phot_mass => some phot_mass
  | node :: next_node, phot_mass =>
      let tau := get_tau pow node.velocity
      let I := get_luminous_intensity pow node.magnitude
      let v := node.velocity * VELOCITY_CONVERSION_FACTOR
      match checked_div 2 tau, checked_div I (pow v 3.0) with
      | some q1, some q2 =>
          calculate_phot_mass_loop_checked pow dt next_node (phot_mass + q1 * (q2 * dt))
      | _, _ => none

/-- The function `calculate_phot_mass` with every division guarded. -/
def calculate_phot_mass_checked (pow : α → α → α) (measures_list : List (Measure_t α)) :
    Option α :=
  match get_dt_checked measures_list with
  | some dt => calculate_phot_mass_loop_checked pow dt measures_list 0.0
  | none => none

/-! ## Values the statements below compare the code with -/

/-- The contribution of one measure to the mass, as the specification writes
it: `(2 / tau(velocity)) * (luminousIntensity(magnitude) / v_scaled^3) * dt`. -/
def contribution (pow : α → α → α) (dt : α) (m : Measure_t α) : α :=
  (2 / get_tau pow m.velocity)
    * (get_luminous_intensity pow m.magnitude / pow (m.velocity * 10000.0) 3) * dt

/-- The light curve of the end-to-end example:
`[{0.0, 0.0, 30.0}, {0.1, 0.5, 29.0}, {0.2, 1.0, 28.0}]`. -/
def golden_samples : List (Measure_t α) :=
  [ { time := 0.0, magnitude := 0.0, velocity := 30.0 },
    { time := 0.1, magnitude := 0.5, velocity := 29.0 },
    { time := 0.2, magnitude := 1.0, velocity := 28.0 } ]

/-! ## Reading the measures (`csvparse.c`)

The functions `atof` and `isalpha` of the C library are arguments, and so is
the content of the node `malloc` returns, which the code does not
initialise.  A `List Char` given to `valid_characters` or `parse_csv_line` is
the array the C pointer points into, from the pointer to the last element of
the array. -/

/-- The character `\0` that ends a C string. -/
def NUL : Char := Char.ofNat 0

/-- The constant `g_field_sep`. -/
def g_field_sep : Char := ','

/-- The constant `g_number_of_fields`. -/
def g_number_of_fields : Nat := 3

/-- The loop of `valid_characters` from `line_pos` on, `valid` being the flag;
the list is the array from `line_pos` to its last element.  The test
`valid && *line_pos != '\n'` reads a character only while `valid` holds, and
the loop goes on over a NUL and the bytes behind it; a read past the last
element of the array gives `none`. -/
def valid_characters_loop (isalpha : Char → Bool) : List Char → Bool → Option Bool
  | [], valid => if valid then none else some valid
  | c :: line_pos, valid =>
      if valid && c != '\n' then
        valid_characters_loop isalpha line_pos (if isalpha c then false else valid)
      else
        some valid

/-- The function `valid_characters`. -/
def valid_characters (isalpha : Char → Bool) (line : List Char) : Option Bool :=
  valid_characters_loop isalpha line true

/-- The text of the C string that starts a buffer: the characters before the
first NUL. -/
def c_string (buf : List Char) : List Char :=
  buf.takeWhile (fun c => c != NUL)

/-- The function `strlen` of the C library. -/
def strlen (buf : List Char) : Nat :=
  (c_string buf).length

/-- The variables of `parse_csv_line` that its loop assigns. -/
structure ParseState (β : Type) where
  line : List Char
  new_measure : Measure_t β
  field_count : Nat
  field_first_pos : Nat

/-- The body of the `for` loop of `parse_csv_line` at index `i`. -/
def parse_csv_line_step {β : Type} (atof : List Char → β) (st : ParseState β) (i : Nat) :
    ParseState β :=
  if st.line.getD i NUL = g_field_sep ∨ st.line.getD i NUL = '\n' then
    let line := st.line.set i NUL
    let value := atof (c_string (line.drop st.field_first_pos))
    let new_measure :=
      match st.field_count with
      | 0 => { st.new_measure with time := value }
      | 1 => { st.new_measure with magnitude := value }
      | 2 => { st.new_measure with velocity := value }
      | _ => st.new_measure
    { line := line
      new_measure := new_measure
      field_count := st.field_count + 1
      field_first_pos := i + 1 }
  else
    st

/-- The `for` loop of `parse_csv_line`: `i` runs from `0` to `len - 1`. -/
def parse_csv_line_loop {β : Type} (atof : List Char → β) (fresh : Measure_t β)
    (line : List Char) : ParseState β :=
  let len := strlen line
  (List.range len).foldl (parse_csv_line_step atof)
    { line := line, new_measure := fresh, field_count := 0, field_first_pos := 0 }

/-- The function `parse_csv_line`; `fresh` is the content of the node as
`malloc` returns it, and `none` is `NULL`. -/
def parse_csv_line {β : Type} (atof : List Char → β) (fresh : Measure_t β)
    (line : List Char) : Option (Measure_t β) :=
  let st := parse_csv_line_loop atof fresh line
  if st.field_count ≠ g_number_of_fields then
    none
  else
    some st.new_measure

/-- The constant `g_line_size`: the size of the array `line` of
`read_csv_file`. -/
def g_line_size : Nat := 250

/-- The texts that the successive calls `fgets(line, g_line_size, csv_file)`
of the loop `while (!feof(csv_file))` return on the rest of a file, `text`
being what the current call has read so far: a call reads through the first
newline, or `g_line_size - 1` characters, or up to the end of the file, and
it returns `NULL` when the file ends before it has read a character. -/
def fgets_lines_aux : List Char → List Char → List (List Char)
  | [], text => if text.isEmpty then [] else [text]
  | c :: csv_file, text =>
      if c = '\n' ∨ text.length + 1 = g_line_size - 1 then
        (text ++ [c]) :: fgets_lines_aux csv_file []
      else
        fgets_lines_aux csv_file (text ++ [c])

/-- The texts the calls of `fgets` return on a file, in order. -/
def fgets_lines (csv_file : List Char) : List (List Char) :=
  fgets_lines_aux csv_file []

/-- The array `line` after `fgets` stored `text` in it: the text, a NUL, and
behind them the bytes the array held before. -/
def fgets_store (line text : List Char) : List Char :=
  text ++ NUL :: line.drop (text.length + 1)

/-- The `while` loop of `read_csv_file` over the texts `fgets` returns one
after the other; `line` is the array, which keeps its content from one round
to the next and in which `parse_csv_line` overwrites the separators,
`measures_list` is the list built so far, and linking the new node after
`last_measure` appends it. -/
def read_csv_file_loop {β : Type} (isalpha : Char → Bool) (atof : List Char → β)
    (fresh : Measure_t β) :
    List (List Char) → List Char → List (Measure_t β) → Option (List (Measure_t β))
  | [], _, measures_list => some measures_list
  | text :: rest, line, measures_list =>
      let line := fgets_store line text
      match valid_characters isalpha line with
      | none => none
      | some valid =>
          if valid then
            let parsed := (parse_csv_line_loop atof fresh line).line
            match parse_csv_line atof fresh line with
            | some new_measure =>
                read_csv_file_loop isalpha atof fresh rest parsed
                  (measures_list ++ [new_measure])
            | none => read_csv_file_loop isalpha atof fresh rest parsed measures_list
          else
            read_csv_file_loop isalpha atof fresh rest line measures_list

/-- The function `read_csv_file` on a file that opens; `stack i` is the byte
the array `line` holds at index `i` before the first `fgets`. -/
def read_csv_file {β : Type} (isalpha : Char → Bool) (atof : List Char → β)
    (fresh : Measure_t β) (stack : Nat → Char) (csv_file : List Char) :
    Option (List (Measure_t β)) :=
  read_csv_file_loop isalpha atof fresh (fgets_lines csv_file)
    ((List.range g_line_size).map stack) []

/-- The test of the loop of `parse_csv_line`:
`line[i] == g_field_sep || line[i] == '\n'`. -/
def is_separator (c : Char) : Bool :=
  decide (c = g_field_sep ∨ c = '\n')

/-- The comma-separated fields of a text: the text is cut at every comma. -/
def split_commas : List Char → List (List Char)
  | [] => [[]]
  | c :: cs =>
      if c = ',' then
        [] :: split_commas cs
      else
        match split_commas cs with
        | [] => [[c]]
        | f :: fs => (c :: f) :: fs

/-- The measure a line is accepted with, if any, `line` being the array that
holds it: what `parse_csv_line` returns when `valid_characters` returns 1. -/
def accepted_measure {β : Type} (isalpha : Char → Bool) (atof : List Char → β)
    (fresh : Measure_t β) (line : List Char) : Option (Measure_t β) :=
  if valid_characters isalpha line = some true then
    parse_csv_line atof fresh line
  else
    none

/-- The array `line` at the end of a round of the loop of `read_csv_file`:
when `valid_characters` returned 1, `parse_csv_line` has overwritten the
separators of the text. -/
def line_after {β : Type} (isalpha : Char → Bool) (atof : List Char → β)
    (fresh : Measure_t β) (line : List Char) : List Char :=
  if valid_characters isalpha line = some true then
    (parse_csv_line_loop atof fresh line).line
  else
    line

/-- The contents of the array `line` that `valid_characters` receives, one
for each text `fgets` returns, in order. -/
def line_buffers {β : Type} (isalpha : Char → Bool) (atof : List Char → β)
    (fresh : Measure_t β) : List (List Char) → List Char → List (List Char)
  | [], _ => []
  | text :: rest, line =>
      fgets_store line text
        :: line_buffers isalpha atof fresh rest
            (line_after isalpha atof fresh (fgets_store line text))

/-- What a newline-terminated line adds to the list, told from the text
`content` before its newline: nothing when the text holds an alphabetic
character, and otherwise the measure `parse_csv_line` returns on the line, if
it returns one. -/
def line_measure {β : Type} (isalpha : Char → Bool) (atof : List Char → β)
    (fresh : Measure_t β) (content : List Char) : Option (Measure_t β) :=
  if content.any isalpha then
    none
  else
    parse_csv_line atof fresh (content ++ ['\n'])

/-- The diagnostic records `calculate_phot_mass` is to print on a list, when
the mass so far is `acc`: one record per measure, each with the running
mass. -/
def expected_records (pow : α → α → α) (dt : α) : List (Measure_t α) → α → List (DiagRecord α)
  | [], _ => []
  | m :: l, acc =>
      { tau := get_tau pow m.velocity
        I := get_luminous_intensity pow m.magnitude
        v := m.velocity * 10000.0
        phot_mass := acc + contribution pow dt m }
        :: expected_records pow dt l (acc + contribution pow dt m)

/-! ## Lemmas on the loops -/

/-- The loop of `get_dt` adds the length of the list to the counter. -/
theorem get_dt_loop_snd {β : Type} (l : List (Measure_t β)) (t : β) (n : Nat) :
    (get_dt_loop l t n).2 = n + l.length := by
  induction l generalizing t n with
  | nil => simp [get_dt_loop]
  | cons a l ih => simp [get_dt_loop, ih]; omega

/-- On a non-empty list the loop of `get_dt` ends with `last_time` the time
of the last node. -/
theorem get_dt_loop_fst {β : Type} (l : List (Measure_t β)) (h : l ≠ []) (t : β) (n : Nat) :
    (get_dt_loop l t n).1 = (l.getLast h).time := by
  induction l generalizing t n with
  | nil => exact absurd rfl h
  | cons a l ih =>
      cases l with
      | nil => simp [get_dt_loop]
      | cons b l =>
          have h2 : b :: l ≠ [] := by simp
          rw [List.getLast_cons_cons, ← ih h2 a.time (n + 1)]
          rfl

/-- The mass held by the loop of `calculate_phot_mass` at its exit is the left
fold of the contributions from the mass at its entry; the printed lines play
no part. -/
theorem calculate_phot_mass_loop_fst (pow : α → α → α) (dt : α) (l : List (Measure_t α))
    (acc : α) (out : List (DiagRecord α)) :
    (calculate_phot_mass_loop pow dt l acc out).1
      = l.foldl (fun a m => a + contribution pow dt m) acc := by
  induction l generalizing acc out with
  | nil => simp [calculate_phot_mass_loop]
  | cons a l ih =>
      simp only [calculate_phot_mass_loop, ih, List.foldl_cons]
      congr 1
      simp only [contribution, VELOCITY_CONVERSION_FACTOR]
      norm_num
      ring

/-! ## The mass is the ordered sum of the contributions -/

/-- C1: for every sample sequence `s`, `calculate_phot_mass s` is the sum,
accumulated in sequence order starting from 0, of
`(2 / get_tau velocity) * (get_luminous_intensity magnitude / (velocity * 10000.0)^3) * dt`
over the samples, where `dt = get_dt s` is computed once from the whole
sequence. -/
theorem calculate_phot_mass_eq_ordered_sum (pow : α → α → α) (s : List (Measure_t α)) :
    calculate_phot_mass pow s
      = s.foldl
          (fun acc m =>
            acc + (2 / get_tau pow m.velocity)
              * (get_luminous_intensity pow m.magnitude / pow (m.velocity * 10000.0) 3)
              * get_dt s)
          0 := by
  have h := calculate_phot_mass_loop_fst pow (get_dt s) s 0.0 []
  simp only [calculate_phot_mass, calculate_phot_mass_run, h, contribution]
  norm_num

/-! ## The branches of `get_tau` -/

/-- C2: for every velocity `v`, `get_tau v` is `10^(-12.75)` if `v <= 9.3`;
`10^(-15.60) * v^2.92` if `9.3 < v <= 12.5`; `10^(-13.24) * v^0.77` if
`12.5 < v <= 17.0`; `10^(-12.50) * v^0.17` if `17.0 < v <= 27.0`;
`10^(-13.69) * v` if `27.0 < v <= 72.0`; and exactly `1.0` if `v > 72.0`. -/
theorem get_tau_piecewise (pow : α → α → α) (v : α) :
    (v ≤ 9.3 → get_tau pow v = pow 10 (-12.75))
    ∧ (9.3 < v → v ≤ 12.5 → get_tau pow v = pow 10 (-15.60) * pow v 2.92)
    ∧ (12.5 < v → v ≤ 17.0 → get_tau pow v = pow 10 (-13.24) * pow v 0.77)
    ∧ (17.0 < v → v ≤ 27.0 → get_tau pow v = pow 10 (-12.50) * pow v 0.17)
    ∧ (27.0 < v → v ≤ 72.0 → get_tau pow v = pow 10 (-13.69) * v)
    ∧ (72.0 < v → get_tau pow v = 1.0) := by
  refine ⟨?_, ?_, ?_, ?_, ?_, ?_⟩
  · intro h1
    simp only [get_tau, if_pos h1]
    norm_num
  · intro h1 h2
    simp only [get_tau, if_neg (not_le.mpr h1), if_pos h2]
    norm_num
  · intro h2 h3
    have h1 : (9.3 : α) < v := lt_trans (by norm_num) h2
    simp only [get_tau, if_neg (not_le.mpr h1), if_neg (not_le.mpr h2), if_pos h3]
    norm_num
  · intro h3 h4
    have h2 : (12.5 : α) < v := lt_trans (by norm_num) h3
    have h1 : (9.3 : α) < v := lt_trans (by norm_num) h2
    simp only [get_tau, if_neg (not_le.mpr h1), if_neg (not_le.mpr h2),
      if_neg (not_le.mpr h3), if_pos h4]
    norm_num
  · intro h4 h5
    have h3 : (17.0 : α) < v := lt_trans (by norm_num) h4
    have h2 : (12.5 : α) < v := lt_trans (by norm_num) h3
    have h1 : (9.3 : α) < v := lt_trans (by norm_num) h2
    simp only [get_tau, if_neg (not_le.mpr h1), if_neg (not_le.mpr h2),
      if_neg (not_le.mpr h3), if_neg (not_le.mpr h4), if_pos h5]
    norm_num
  · intro h5
    have h4 : (27.0 : α) < v := lt_trans (by norm_num) h5
    have h3 : (17.0 : α) < v := lt_trans (by norm_num) h4
    have h2 : (12.5 : α) < v := lt_trans (by norm_num) h3
    have h1 : (9.3 : α) < v := lt_trans (by norm_num) h2
    simp only [get_tau, if_neg (not_le.mpr h1), if_neg (not_le.mpr h2),
      if_neg (not_le.mpr h3), if_neg (not_le.mpr h4), if_neg (not_le.mpr h5)]

/-- Witness of C2 at real velocities, one in each branch, with `Real.rpow`
for `pow`. -/
theorem get_tau_piecewise_witness :
    get_tau Real.rpow 5 = Real.rpow 10 (-12.75)
    ∧ get_tau Real.rpow 10 = Real.rpow 10 (-15.60) * Real.rpow 10 2.92
    ∧ get_tau Real.rpow 15 = Real.rpow 10 (-13.24) * Real.rpow 15 0.77
    ∧ get_tau Real.rpow 20 = Real.rpow 10 (-12.50) * Real.rpow 20 0.17
    ∧ get_tau Real.rpow 30 = Real.rpow 10 (-13.69) * 30
    ∧ get_tau Real.rpow 100 = 1.0 :=
  ⟨(get_tau_piecewise Real.rpow 5).1 (by norm_num),
   (get_tau_piecewise Real.rpow 10).2.1 (by norm_num) (by norm_num),
   (get_tau_piecewise Real.rpow 15).2.2.1 (by norm_num) (by norm_num),
   (get_tau_piecewise Real.rpow 20).2.2.2.1 (by norm_num) (by norm_num),
   (get_tau_piecewise Real.rpow 30).2.2.2.2.1 (by norm_num) (by norm_num),
   (get_tau_piecewise Real.rpow 100).2.2.2.2.2 (by norm_num)⟩

/-- C3: at each bin boundary `b` in `9.3, 12.5, 17.0, 27.0, 72.0` the value
`get_tau b` is computed by the lower branch, while for every `v` strictly
above `b` and not above the next boundary `get_tau v` is computed by the next
(upper) branch; above the last boundary that is the initial value `1.0`. -/
theorem get_tau_boundaries (pow : α → α → α) :
    (get_tau pow 9.3 = pow 10 (-12.75)
      ∧ get_tau pow 12.5 = pow 10 (-15.60) * pow 12.5 2.92
      ∧ get_tau pow 17.0 = pow 10 (-13.24) * pow 17 0.77
      ∧ get_tau pow 27.0 = pow 10 (-12.50) * pow 27 0.17
      ∧ get_tau pow 72.0 = pow 10 (-13.69) * 72)
    ∧ (∀ v : α, 9.3 < v → v ≤ 12.5 → get_tau pow v = pow 10 (-15.60) * pow v 2.92)
    ∧ (∀ v : α, 12.5 < v → v ≤ 17.0 → get_tau pow v = pow 10 (-13.24) * pow v 0.77)
    ∧ (∀ v : α, 17.0 < v → v ≤ 27.0 → get_tau pow v = pow 10 (-12.50) * pow v 0.17)
    ∧ (∀ v : α, 27.0 < v → v ≤ 72.0 → get_tau pow v = pow 10 (-13.69) * v)
    ∧ (∀ v : α, 72.0 < v → get_tau pow v = 1.0) := by
  refine ⟨⟨?_, ?_, ?_, ?_, ?_⟩, ?_, ?_, ?_, ?_, ?_⟩
  · simp only [get_tau]
    norm_num
  · simp only [get_tau]
    norm_num
  · simp only [get_tau]
    norm_num
  · simp only [get_tau]
    norm_num
  · simp only [get_tau]
    norm_num
  · intro v h1 h2
    simp only [get_tau, if_neg (not_le.mpr h1), if_pos h2]
    norm_num
  · intro v h2 h3
    have h1 : (9.3 : α) < v := lt_trans (by norm_num) h2
    simp only [get_tau, if_neg (not_le.mpr h1), if_neg (not_le.mpr h2), if_pos h3]
    norm_num
  · intro v h3 h4
    have h2 : (12.5 : α) < v := lt_trans (by norm_num) h3
    have h1 : (9.3 : α) < v := lt_trans (by norm_num) h2
    simp only [get_tau, if_neg (not_le.mpr h1), if_neg (not_le.mpr h2),
      if_neg (not_le.mpr h3), if_pos h4]
    norm_num
  · intro v h4 h5
    have h3 : (17.0 : α) < v := lt_trans (by norm_num) h4
    have h2 : (12.5 : α) < v := lt_trans (by norm_num) h3
    have h1 : (9.3 : α) < v := lt_trans (by norm_num) h2
    simp only [get_tau, if_neg (not_le.mpr h1), if_neg (not_le.mpr h2),
      if_neg (not_le.mpr h3), if_neg (not_le.mpr h4), if_pos h5]
    norm_num
  · intro v h5
    have h4 : (27.0 : α) < v := lt_trans (by norm_num) h5
    have h3 : (17.0 : α) < v := lt_trans (by norm_num) h4
    have h2 : (12.5 : α) < v := lt_trans (by norm_num) h3
    have h1 : (9.3 : α) < v := lt_trans (by norm_num) h2
    simp only [get_tau, if_neg (not_le.mpr h1), if_neg (not_le.mpr h2),
      if_neg (not_le.mpr h3), if_neg (not_le.mpr h4), if_neg (not_le.mpr h5)]

/-- Witness of C3 just above each boundary, at real velocities with
`Real.rpow` for `pow`. -/
theorem get_tau_boundaries_witness :
    get_tau Real.rpow 9.4 = Real.rpow 10 (-15.60) * Real.rpow 9.4 2.92
    ∧ get_tau Real.rpow 12.6 = Real.rpow 10 (-13.24) * Real.rpow 12.6 0.77
    ∧ get_tau Real.rpow 17.1 = Real.rpow 10 (-12.50) * Real.rpow 17.1 0.17
    ∧ get_tau Real.rpow 27.1 = Real.rpow 10 (-13.69) * 27.1
    ∧ get_tau Real.rpow 72.1 = 1.0 :=
  ⟨(get_tau_boundaries Real.rpow).2.1 9.4 (by norm_num) (by norm_num),
   (get_tau_boundaries Real.rpow).2.2.1 12.6 (by norm_num) (by norm_num),
   (get_tau_boundaries Real.rpow).2.2.2.1 17.1 (by norm_num) (by norm_num),
   (get_tau_boundaries Real.rpow).2.2.2.2.1 27.1 (by norm_num) (by norm_num),
   (get_tau_boundaries Real.rpow).2.2.2.2.2 72.1 (by norm_num)⟩

/-! ## The time step -/

/-- C4: for every sample sequence `s = [s_1, ..., s_n]` with `n >= 1`,
`get_dt s = (s_n.time - s_1.time) / n`, the first and last samples being
taken by position whatever the times of the other samples are; a one-sample
sequence gives `0.0` and a two-sample sequence with times 0 and 10 gives
`5.0`. -/
theorem get_dt_positional :
    (∀ (s : List (Measure_t α)) (h : s ≠ []),
        get_dt s = ((s.getLast h).time - (s.head h).time) / (s.length : α))
    ∧ (∀ m : Measure_t α, get_dt [m] = 0.0)
    ∧ (∀ a b : Measure_t α, a.time = 0 → b.time = 10 → get_dt [a, b] = 5.0) := by
  have key : ∀ (s : List (Measure_t α)) (h : s ≠ []),
      get_dt s = ((s.getLast h).time - (s.head h).time) / (s.length : α) := by
    intro s h
    cases s with
    | nil => exact absurd rfl h
    | cons a l =>
        have hlen : 0 < (get_dt_loop (a :: l) (0.0 : α) 0).2 := by
          rw [get_dt_loop_snd]; simp
        simp only [get_dt, gt_iff_lt, if_pos hlen, List.head_cons]
        rw [get_dt_loop_snd, get_dt_loop_fst (a :: l) h]
        simp
  refine ⟨key, ?_, ?_⟩
  · intro m
    rw [key [m] (by simp)]
    norm_num
  · intro a b ha hb
    rw [key [a, b] (by simp)]
    simp only [List.getLast_cons_cons, List.getLast_singleton, List.head_cons, ha, hb,
      List.length_cons, List.length_nil]
    norm_num

/-- Witness of C4 over the rationals: an unsorted three-sample sequence, whose
middle time 99 plays no part. -/
theorem get_dt_positional_witness :
    get_dt ([⟨7, 0, 30⟩, ⟨99, 0, 30⟩, ⟨1, 0, 30⟩] : List (Measure_t ℚ)) = (1 - 7) / 3 := by
  have h := (get_dt_positional).1
    ([⟨7, 0, 30⟩, ⟨99, 0, 30⟩, ⟨1, 0, 30⟩] : List (Measure_t ℚ)) (by simp)
  simpa using h

/-! ## The end-to-end example -/

/-- The time step of the end-to-end example is `0.2 / 3`. -/
theorem get_dt_golden_samples : get_dt (golden_samples : List (Measure_t α)) = 1 / 15 := by
  simp only [get_dt, golden_samples, get_dt_loop]
  norm_num

/-- The fifth branch of `get_tau`, for `27 < v <= 72`. -/
theorem get_tau_golden_branch (pow : α → α → α) (v : α) (h1 : 27.0 < v) (h2 : v ≤ 72.0) :
    get_tau pow v = pow 10 (-13.69) * v := by
  have h4 : (17.0 : α) < v := lt_trans (by norm_num) h1
  have h3 : (12.5 : α) < v := lt_trans (by norm_num) h4
  have h0 : (9.3 : α) < v := lt_trans (by norm_num) h3
  simp only [get_tau, if_neg (not_le.mpr h0), if_neg (not_le.mpr h3),
    if_neg (not_le.mpr h4), if_neg (not_le.mpr h1), if_pos h2]
  norm_num

/-- The mass of the end-to-end example, for any `pow`. -/
theorem calculate_phot_mass_golden_samples (pow : α → α → α) :
    calculate_phot_mass pow (golden_samples : List (Measure_t α))
      = (golden_samples : List (Measure_t α)).foldl
          (fun acc m =>
            acc + (2 / (pow 10 (-13.69) * m.velocity))
              * (pow 10 (m.magnitude / -2.5) / pow (m.velocity * 10000) 3) * (1 / 15))
          0 := by
  have h := calculate_phot_mass_loop_fst pow (get_dt (golden_samples : List (Measure_t α)))
    golden_samples 0.0 []
  show (calculate_phot_mass_loop pow (get_dt (golden_samples : List (Measure_t α)))
    golden_samples 0.0 []).1 = _
  rw [h, get_dt_golden_samples]
  have e30 := get_tau_golden_branch pow (30.0 : α) (by norm_num) (by norm_num)
  have e29 := get_tau_golden_branch pow (29.0 : α) (by norm_num) (by norm_num)
  have e28 := get_tau_golden_branch pow (28.0 : α) (by norm_num) (by norm_num)
  simp only [golden_samples, List.foldl_cons, List.foldl_nil, contribution,
    get_luminous_intensity, e30, e29, e28]
  norm_num

/-- C5, amended: on `[{0.0, 0.0, 30.0}, {0.1, 0.5, 29.0}, {0.2, 1.0, 28.0}]`
the time step is `(0.2 - 0.0) / 3 = 1/15` and `calculate_phot_mass` returns the
sum over the three samples of
`(2 / (10^(-13.69) * v)) * (10^(m / -2.5) / (v * 10000)^3) * (1/15)`, every
`tau` coming from the 27-72 km/s branch. -/
theorem golden_mass_value (pow : α → α → α) :
    get_dt (golden_samples : List (Measure_t α)) = (0.2 - 0.0) / 3
    ∧ (∀ m ∈ (golden_samples : List (Measure_t α)),
        get_tau pow m.velocity = pow 10 (-13.69) * m.velocity)
    ∧ calculate_phot_mass pow (golden_samples : List (Measure_t α))
      = (golden_samples : List (Measure_t α)).foldl
          (fun acc m =>
            acc + (2 / (pow 10 (-13.69) * m.velocity))
              * (pow 10 (m.magnitude / -2.5) / pow (m.velocity * 10000) 3) * (1 / 15))
          0 := by
  refine ⟨?_, ?_, calculate_phot_mass_golden_samples pow⟩
  · rw [get_dt_golden_samples]
    norm_num
  · intro m hm
    simp only [golden_samples, List.mem_cons, List.mem_singleton, List.not_mem_nil,
      or_false] at hm
    rcases hm with rfl | rfl | rfl
    · exact get_tau_golden_branch pow _ (by norm_num) (by norm_num)
    · exact get_tau_golden_branch pow _ (by norm_num) (by norm_num)
    · exact get_tau_golden_branch pow _ (by norm_num) (by norm_num)

/-- C5 as stated fails over the reals with `Real.rpow`: the time step of the
example is not `1/30`, and the returned mass is not the sum taken with
`dt = 1/30`. -/
theorem golden_mass_not_claimed :
    get_dt (golden_samples : List (Measure_t ℝ)) ≠ 1 / 30
    ∧ calculate_phot_mass Real.rpow (golden_samples : List (Measure_t ℝ))
      ≠ (golden_samples : List (Measure_t ℝ)).foldl
          (fun acc m =>
            acc + (2 / (Real.rpow 10 (-13.69) * m.velocity))
              * (Real.rpow 10 (m.magnitude / -2.5) / Real.rpow (m.velocity * 10000) 3)
              * (1 / 30))
          0 := by
  refine ⟨?_, ?_⟩
  · rw [get_dt_golden_samples]
    norm_num
  · rw [calculate_phot_mass_golden_samples]
    simp only [golden_samples, List.foldl_cons, List.foldl_nil, Real.rpow_eq_pow]
    intro h
    have p1 : (0 : ℝ) < 2 / (10 ^ (-13.69 : ℝ) * 30.0)
        * (10 ^ (0.0 / -2.5 : ℝ) / (30.0 * 10000) ^ (3 : ℝ)) := by positivity
    have p2 : (0 : ℝ) < 2 / (10 ^ (-13.69 : ℝ) * 29.0)
        * (10 ^ (0.5 / -2.5 : ℝ) / (29.0 * 10000) ^ (3 : ℝ)) := by positivity
    have p3 : (0 : ℝ) < 2 / (10 ^ (-13.69 : ℝ) * 28.0)
        * (10 ^ (1.0 / -2.5 : ℝ) / (28.0 * 10000) ^ (3 : ℝ)) := by positivity
    linarith

/-! ## Guarded division -/

/-- A guarded division that returns a value had a non-zero divisor and
returns the quotient. -/
theorem checked_div_eq_some (a b q : α) (h : checked_div a b = some q) : b ≠ 0 ∧ q = a / b := by
  unfold checked_div at h
  by_cases hb : b = 0
  · simp [hb] at h
  · simp only [if_neg hb, Option.some.injEq] at h
    exact ⟨hb, h.symm⟩

/-- A guarded division with a non-zero divisor returns the quotient. -/
theorem checked_div_of_ne_zero (a b : α) (hb : b ≠ 0) : checked_div a b = some (a / b) := by
  simp [checked_div, hb]

/-- The division of `get_dt` never has a zero divisor: the count is tested
before it divides. -/
theorem get_dt_checked_eq (s : List (Measure_t α)) : get_dt_checked s = some (get_dt s) := by
  unfold get_dt_checked get_dt
  by_cases hn : (get_dt_loop s (0.0 : α) 0).2 > 0
  · have hne : (((get_dt_loop s (0.0 : α) 0).2 : Nat) : α) ≠ 0 := by
      exact_mod_cast (Nat.pos_iff_ne_zero.mp hn)
    simp only [if_pos hn]
    exact checked_div_of_ne_zero _ _ hne
  · simp only [if_neg hn]

/-- When the guarded loop returns a value, the plain loop returns the same. -/
theorem calculate_phot_mass_loop_checked_eq (pow : α → α → α) (dt : α)
    (l : List (Measure_t α)) (acc r : α) (out : List (DiagRecord α))
    (h : calculate_phot_mass_loop_checked pow dt l acc = some r) :
    (calculate_phot_mass_loop pow dt l acc out).1 = r := by
  induction l generalizing acc out with
  | nil =>
      simp only [calculate_phot_mass_loop_checked, Option.some.injEq] at h
      simpa [calculate_phot_mass_loop] using h
  | cons a l ih =>
      simp only [calculate_phot_mass_loop_checked] at h
      cases h1 : checked_div 2 (get_tau pow a.velocity) with
      | none => simp [h1] at h
      | some q1 =>
          cases h2 : checked_div (get_luminous_intensity pow a.magnitude)
              (pow (a.velocity * VELOCITY_CONVERSION_FACTOR) 3.0) with
          | none => simp [h1, h2] at h
          | some q2 =>
              simp only [h1, h2] at h
              have e1 := (checked_div_eq_some _ _ _ h1).2
              have e2 := (checked_div_eq_some _ _ _ h2).2
              simp only [calculate_phot_mass_loop]
              rw [← e1, ← e2]
              exact ih _ _ h

/-- When the guarded `calculate_phot_mass` returns a value, the plain function
returns the same. -/
theorem calculate_phot_mass_checked_eq (pow : α → α → α) (s : List (Measure_t α)) (r : α)
    (h : calculate_phot_mass_checked pow s = some r) : calculate_phot_mass pow s = r := by
  unfold calculate_phot_mass_checked at h
  rw [get_dt_checked_eq] at h
  exact calculate_phot_mass_loop_checked_eq pow (get_dt s) s 0.0 r [] h

/-- The cube `pow(x, 3.0)` of a non-zero real is not zero. -/
theorem rpow_three_ne_zero (x : ℝ) (hx : x ≠ 0) : Real.rpow x 3.0 ≠ 0 := by
  have e : (3.0 : ℝ) = ((3 : ℕ) : ℝ) := by norm_num
  rw [Real.rpow_eq_pow, e, Real.rpow_natCast]
  exact pow_ne_zero 3 hx

/-- The guarded loop returns a value when no `tau` and no velocity of the list
is zero. -/
theorem calculate_phot_mass_loop_checked_isSome (dt : ℝ) (l : List (Measure_t ℝ))
    (htau : ∀ m ∈ l, get_tau Real.rpow m.velocity ≠ 0)
    (hv : ∀ m ∈ l, m.velocity ≠ 0) (acc : ℝ) :
    (calculate_phot_mass_loop_checked Real.rpow dt l acc).isSome = true := by
  induction l generalizing acc with
  | nil => simp [calculate_phot_mass_loop_checked]
  | cons a l ih =>
      have h1 := checked_div_of_ne_zero (2 : ℝ) _ (htau a (List.mem_cons_self a l))
      have hva : a.velocity * VELOCITY_CONVERSION_FACTOR ≠ 0 := by
        refine mul_ne_zero (hv a (List.mem_cons_self a l)) ?_
        simp only [VELOCITY_CONVERSION_FACTOR]
        norm_num
      have h2 := checked_div_of_ne_zero (get_luminous_intensity Real.rpow a.magnitude) _
        (rpow_three_ne_zero _ hva)
      simp only [calculate_phot_mass_loop_checked, h1, h2]
      exact ih (fun m hm => htau m (List.mem_cons_of_mem a hm))
        (fun m hm => hv m (List.mem_cons_of_mem a hm)) _

/-- C6 fails on the one-sample sequence `[{0.0, 0.0, 0.0}]`: the divisor
`pow(v, 3.0)` of `I / pow(v, 3.0)` is zero although `I` is not, and with
guarded division `calculate_phot_mass` reports the zero divisor. -/
theorem calculate_phot_mass_zero_divisor :
    Real.rpow ((0.0 : ℝ) * VELOCITY_CONVERSION_FACTOR) 3.0 = 0
    ∧ get_luminous_intensity Real.rpow (0.0 : ℝ) = 1
    ∧ calculate_phot_mass_checked Real.rpow
        [({ time := 0.0, magnitude := 0.0, velocity := 0.0 } : Measure_t ℝ)] = none := by
  have hz : Real.rpow ((0.0 : ℝ) * VELOCITY_CONVERSION_FACTOR) 3.0 = 0 := by
    simp only [Real.rpow_eq_pow]
    norm_num
  refine ⟨hz, ?_, ?_⟩
  · simp only [get_luminous_intensity, Real.rpow_eq_pow]
    norm_num
  · simp only [calculate_phot_mass_checked, get_dt_checked_eq, calculate_phot_mass_loop_checked,
      hz, checked_div]
    simp

/-! ## Positivity of `tau` -/

/-- With `Real.rpow` for `pow`, `get_tau` is positive at every real velocity. -/
theorem get_tau_rpow_pos (v : ℝ) : 0 < get_tau Real.rpow v := by
  unfold get_tau
  simp only [Real.rpow_eq_pow]
  split_ifs with h1 h2 h3 h4 h5
  · positivity
  · have hv : 0 < v := lt_trans (by norm_num) (not_le.mp h1)
    positivity
  · have hv : 0 < v := lt_trans (by norm_num) (not_le.mp h1)
    positivity
  · have hv : 0 < v := lt_trans (by norm_num) (not_le.mp h1)
    positivity
  · have hv : 0 < v := lt_trans (by norm_num) (not_le.mp h1)
    positivity
  · norm_num

/-- C7: for every velocity `v`, also `v <= 0` and `v > 72`, `get_tau v` is
strictly positive, hence never zero, so the divisor of `2 / tau` is never
zero: the guarded division returns a value. -/
theorem get_tau_pos (v : ℝ) :
    0 < get_tau Real.rpow v
    ∧ get_tau Real.rpow v ≠ 0
    ∧ checked_div 2 (get_tau Real.rpow v) = some (2 / get_tau Real.rpow v) :=
  ⟨get_tau_rpow_pos v, ne_of_gt (get_tau_rpow_pos v),
    checked_div_of_ne_zero _ _ (ne_of_gt (get_tau_rpow_pos v))⟩

/-! ## Luminous intensity -/

/-- C8: for every magnitude `m`, `get_luminous_intensity m = 10^(m / -2.5)`;
in particular `get_luminous_intensity 0.0 = 1.0` and
`get_luminous_intensity (-2.5) = 10.0`. -/
theorem get_luminous_intensity_formula :
    (∀ m : ℝ, get_luminous_intensity Real.rpow m = (10 : ℝ) ^ (m / -2.5))
    ∧ get_luminous_intensity Real.rpow (0.0 : ℝ) = 1.0
    ∧ get_luminous_intensity Real.rpow (-2.5 : ℝ) = 10.0 := by
  refine ⟨?_, ?_, ?_⟩
  · intro m
    simp only [get_luminous_intensity, Real.rpow_eq_pow]
    norm_num
  · simp only [get_luminous_intensity, Real.rpow_eq_pow]
    norm_num
  · simp only [get_luminous_intensity, Real.rpow_eq_pow]
    norm_num

/-! ## The empty sequence -/

/-- C10: on the empty sample sequence `get_dt` returns the initial value
`1.0` of `dt`; the division by the zero count is not performed. -/
theorem get_dt_nil :
    get_dt ([] : List (Measure_t α)) = 1.0
    ∧ (get_dt_loop ([] : List (Measure_t α)) 0.0 0).2 = 0
    ∧ get_dt_checked ([] : List (Measure_t α)) = some 1.0 := by
  refine ⟨?_, ?_, ?_⟩
  · simp [get_dt, get_dt_loop]
  · simp [get_dt_loop]
  · simp [get_dt_checked, get_dt_loop]

/-! ## Where the guarded mass returns a value -/

/-- With `Real.rpow` for `pow`, the guarded `calculate_phot_mass` returns the
value of the plain function on every list whose velocities are all non-zero. -/
theorem calculate_phot_mass_checked_of_velocity_ne_zero (s : List (Measure_t ℝ))
    (hv : ∀ m ∈ s, m.velocity ≠ 0) :
    calculate_phot_mass_checked Real.rpow s = some (calculate_phot_mass Real.rpow s) := by
  have hsome : (calculate_phot_mass_checked Real.rpow s).isSome = true := by
    unfold calculate_phot_mass_checked
    rw [get_dt_checked_eq]
    exact calculate_phot_mass_loop_checked_isSome (get_dt s) s
      (fun m _ => ne_of_gt (get_tau_rpow_pos m.velocity)) hv 0.0
  obtain ⟨r, hr⟩ := Option.isSome_iff_exists.mp hsome
  rw [hr, calculate_phot_mass_checked_eq Real.rpow s r hr]

/-! ## The mass of the empty sequence -/

/-- C11: on the empty sample sequence `calculate_phot_mass` returns `0.0`: the
loop body never runs, nothing is printed, and the result is `0.0` whatever
`dt` is, so the initial `dt = 1.0` is not used. -/
theorem calculate_phot_mass_nil (pow : α → α → α) :
    calculate_phot_mass pow ([] : List (Measure_t α)) = 0.0
    ∧ (calculate_phot_mass_run pow ([] : List (Measure_t α))).2 = []
    ∧ (∀ dt : α, calculate_phot_mass_loop pow dt [] 0.0 [] = (0.0, [])) := by
  refine ⟨?_, ?_, ?_⟩
  · simp [calculate_phot_mass, calculate_phot_mass_run, calculate_phot_mass_loop]
  · simp [calculate_phot_mass_run, calculate_phot_mass_loop]
  · intro dt
    simp [calculate_phot_mass_loop]

/-! ## A negative time step -/

/-- The time step of a non-empty list: last time minus first time, by
position, over the number of nodes. -/
theorem get_dt_of_ne_nil (s : List (Measure_t α)) (h : s ≠ []) :
    get_dt s = ((s.getLast h).time - (s.head h).time) / (s.length : α) := by
  cases s with
  | nil => exact absurd rfl h
  | cons a l =>
      have hlen : 0 < (get_dt_loop (a :: l) (0.0 : α) 0).2 := by
        rw [get_dt_loop_snd]; simp
      simp only [get_dt, gt_iff_lt, if_pos hlen, List.head_cons]
      rw [get_dt_loop_snd, get_dt_loop_fst (a :: l) h]
      simp

/-- C15: for some sample sequence whose times are not increasing, `get_dt`
returns a negative value: with first time 10 and last time 0 it returns
`-5`; and so it does, below zero, on every sequence whose last time is below
its first time. -/
theorem get_dt_negative :
    get_dt ([{ time := 10, magnitude := 0, velocity := 30 },
             { time := 0, magnitude := 0, velocity := 30 }] : List (Measure_t α)) = -5
    ∧ (-5 : α) < 0
    ∧ (∀ (s : List (Measure_t α)) (h : s ≠ []),
        (s.getLast h).time < (s.head h).time → get_dt s < 0) := by
  refine ⟨?_, by norm_num, ?_⟩
  · rw [get_dt_of_ne_nil _ (by simp)]
    simp only [List.getLast_cons_cons, List.getLast_singleton, List.head_cons,
      List.length_cons, List.length_nil]
    norm_num
  · intro s h hlt
    rw [get_dt_of_ne_nil s h]
    have hlen : (0 : α) < (s.length : α) := by
      exact_mod_cast List.length_pos.mpr h
    exact div_neg_of_neg_of_pos (sub_neg.mpr hlt) hlen

/-! ## The printed records -/

/-- The term the loop of `calculate_phot_mass` adds for a node is the
contribution of that node. -/
theorem loop_term_eq_contribution (pow : α → α → α) (dt : α) (m : Measure_t α) :
    (2 / get_tau pow m.velocity)
        * ((get_luminous_intensity pow m.magnitude
            / pow (m.velocity * VELOCITY_CONVERSION_FACTOR) 3.0) * dt)
      = contribution pow dt m := by
  simp only [contribution, VELOCITY_CONVERSION_FACTOR]
  norm_num
  ring

/-- The loop of `calculate_phot_mass` returns the left fold of the
contributions and appends the expected records to the lines printed before. -/
theorem calculate_phot_mass_loop_eq (pow : α → α → α) (dt : α) (l : List (Measure_t α))
    (acc : α) (out : List (DiagRecord α)) :
    calculate_phot_mass_loop pow dt l acc out
      = (l.foldl (fun a m => a + contribution pow dt m) acc,
          out ++ expected_records pow dt l acc) := by
  induction l generalizing acc out with
  | nil => simp [calculate_phot_mass_loop, expected_records]
  | cons a l ih =>
      simp only [calculate_phot_mass_loop, loop_term_eq_contribution]
      rw [ih]
      simp only [List.foldl_cons, expected_records, VELOCITY_CONVERSION_FACTOR,
        List.append_assoc, List.singleton_append]

/-- One record is expected for each measure. -/
theorem expected_records_length (pow : α → α → α) (dt : α) (l : List (Measure_t α)) (acc : α) :
    (expected_records pow dt l acc).length = l.length := by
  induction l generalizing acc with
  | nil => simp [expected_records]
  | cons a l ih => simp [expected_records, ih]

/-- The `k`-th expected record holds the values of the `k`-th measure and the
mass after the measures up to it. -/
theorem expected_records_getElem? (pow : α → α → α) (dt : α) (l : List (Measure_t α))
    (acc : α) (k : Nat) (hk : k < l.length) :
    (expected_records pow dt l acc)[k]?
      = some { tau := get_tau pow (l[k]).velocity
               I := get_luminous_intensity pow (l[k]).magnitude
               v := (l[k]).velocity * 10000.0
               phot_mass := (l.take (k + 1)).foldl (fun a m => a + contribution pow dt m) acc } := by
  induction l generalizing acc k with
  | nil => simp at hk
  | cons a l ih =>
      cases k with
      | zero => simp [expected_records]
      | succ k =>
          have hk2 : k < l.length := by simpa using hk
          simp only [expected_records, List.getElem?_cons_succ, List.getElem_cons_succ,
            List.take_succ_cons, List.foldl_cons]
          exact ih _ k hk2

/-- C16: for every sample sequence of length `n`, `calculate_phot_mass` prints
exactly `n` records in sequence order; the `k`-th record carries
`get_tau velocity_k`, `get_luminous_intensity magnitude_k`,
`velocity_k * 10000.0` and the running mass after the first `k` samples, and
the running mass of the last record is the returned value. -/
theorem calculate_phot_mass_records (pow : α → α → α) (s : List (Measure_t α)) :
    (calculate_phot_mass_run pow s).2.length = s.length
    ∧ (∀ (k : Nat) (hk : k < s.length),
        (calculate_phot_mass_run pow s).2[k]?
          = some { tau := get_tau pow (s[k]).velocity
                   I := get_luminous_intensity pow (s[k]).magnitude
                   v := (s[k]).velocity * 10000.0
                   phot_mass :=
                     (s.take (k + 1)).foldl
                       (fun acc m => acc + contribution pow (get_dt s) m) 0 })
    ∧ (∀ r : DiagRecord α, (calculate_phot_mass_run pow s).2.getLast? = some r →
        r.phot_mass = calculate_phot_mass pow s) := by
  have hrun : calculate_phot_mass_run pow s
      = (s.foldl (fun a m => a + contribution pow (get_dt s) m) 0,
          expected_records pow (get_dt s) s 0) := by
    simp only [calculate_phot_mass_run]
    rw [calculate_phot_mass_loop_eq]
    norm_num
  refine ⟨?_, ?_, ?_⟩
  · rw [hrun]
    exact expected_records_length pow (get_dt s) s 0
  · intro k hk
    rw [hrun]
    exact expected_records_getElem? pow (get_dt s) s 0 k hk
  · intro r hr
    rw [calculate_phot_mass, hrun] at *
    simp only at hr ⊢
    rw [List.getLast?_eq_getElem?, expected_records_length] at hr
    cases s with
    | nil => simp [expected_records] at hr
    | cons a l =>
        have hk : (a :: l).length - 1 < (a :: l).length := by simp
        rw [expected_records_getElem? pow _ (a :: l) 0 _ hk] at hr
        simp only [Option.some.injEq] at hr
        rw [← hr]
        simp

/-! ## Parsing a line -/

/-- Counting in one more character of a text; past the end of the text the
character read is NUL, which the test rejects. -/
theorem countP_take_succ (p : Char → Bool) (hp : p NUL = false) (l : List Char) (n : Nat) :
    (l.take (n + 1)).countP p = (l.take n).countP p + (if p (l.getD n NUL) then 1 else 0) := by
  induction l generalizing n with
  | nil => simp [hp]
  | cons a l ih =>
      cases n with
      | zero => simp [List.countP_cons]
      | succ n =>
          simp only [List.take_succ_cons, List.countP_cons, List.getD_cons_succ, ih n]
          omega

/-- The loop of `parse_csv_line` after `n` rounds: the characters from index
`n` on are those of the line, and `field_count` is the number of separators
among the first `n` characters. -/
theorem parse_csv_line_fold {β : Type} (atof : List Char → β) (fresh : Measure_t β)
    (line : List Char) (n : Nat) :
    (∀ j, n ≤ j →
        ((List.range n).foldl (parse_csv_line_step atof)
          { line := line, new_measure := fresh, field_count := 0, field_first_pos := 0 }).line.getD
            j NUL = line.getD j NUL)
    ∧ ((List.range n).foldl (parse_csv_line_step atof)
          { line := line, new_measure := fresh, field_count := 0,
            field_first_pos := 0 }).field_count
        = (line.take n).countP is_separator := by
  induction n with
  | zero => simp
  | succ n ih =>
      obtain ⟨ih1, ih2⟩ := ih
      have hNUL : is_separator NUL = false := by decide
      rw [List.range_succ, List.foldl_append, List.foldl_cons, List.foldl_nil,
        countP_take_succ is_separator hNUL]
      generalize (List.range n).foldl (parse_csv_line_step atof)
        { line := line, new_measure := fresh, field_count := 0, field_first_pos := 0 } = st
        at ih1 ih2 ⊢
      have hread := ih1 n (le_refl n)
      by_cases hsep : st.line.getD n NUL = g_field_sep ∨ st.line.getD n NUL = '\n'
      · have hs : is_separator (line.getD n NUL) = true := by
          rw [← hread]
          simpa [is_separator] using hsep
        simp only [parse_csv_line_step, if_pos hsep, hs, if_true, ih2, and_true]
        intro j hj
        rw [← ih1 j (by omega)]
        simp only [List.getD_eq_getElem?_getD]
        rw [List.getElem?_set_ne (by omega)]
      · have hs : is_separator (line.getD n NUL) = false := by
          rw [← hread]
          simpa [is_separator] using hsep
        simp only [parse_csv_line_step, if_neg hsep, hs, ih2]
        simp only [Bool.false_eq_true, if_false, add_zero, and_true]
        intro j hj
        exact ih1 j (by omega)

/-- Taking as many characters as `takeWhile` keeps gives what it keeps. -/
theorem take_length_takeWhile (p : Char → Bool) (l : List Char) :
    l.take (l.takeWhile p).length = l.takeWhile p := by
  induction l with
  | nil => rfl
  | cons a l ih =>
      by_cases h : p a = true
      · simp [List.takeWhile_cons, h, ih]
      · simp [List.takeWhile_cons, h]

/-- At the end of the loop of `parse_csv_line`, `field_count` is the number of
separators of the text of the line. -/
theorem parse_csv_line_field_count {β : Type} (atof : List Char → β) (fresh : Measure_t β)
    (line : List Char) :
    (parse_csv_line_loop atof fresh line).field_count = (c_string line).countP is_separator := by
  unfold parse_csv_line_loop
  simp only
  rw [(parse_csv_line_fold atof fresh line (strlen line)).2]
  unfold strlen c_string
  rw [take_length_takeWhile]

/-- The function `parse_csv_line` returns a measure exactly when the text of
the line holds three separators. -/
theorem parse_csv_line_isSome_iff {β : Type} (atof : List Char → β) (fresh : Measure_t β)
    (line : List Char) :
    (parse_csv_line atof fresh line).isSome = true
      ↔ (c_string line).countP is_separator = 3 := by
  unfold parse_csv_line
  simp only [parse_csv_line_field_count, g_number_of_fields]
  by_cases h : (c_string line).countP is_separator = 3
  · simp [h]
  · simp [h]

/-- A text without NUL is its own C string. -/
theorem c_string_of_not_mem (l : List Char) (h : NUL ∉ l) : c_string l = l := by
  unfold c_string
  rw [List.takeWhile_eq_self_iff]
  intro x hx
  have : x ≠ NUL := fun e => h (e ▸ hx)
  simpa using this

/-- A text without newline has one more field than it has separators. -/
theorem split_commas_length (content : List Char) (hnl : '\n' ∉ content) :
    (split_commas content).length = content.countP is_separator + 1 := by
  induction content with
  | nil => simp [split_commas]
  | cons c cs ih =>
      have hc : c ≠ '\n' := fun e => hnl (e ▸ List.mem_cons_self c cs)
      have hcs : '\n' ∉ cs := fun h => hnl (List.mem_cons_of_mem c h)
      have ih2 := ih hcs
      by_cases hcomma : c = ','
      · have hs : is_separator c = true := by simp [is_separator, g_field_sep, hcomma]
        simp [split_commas, hcomma, ih2, List.countP_cons, is_separator, g_field_sep]
      · have hs : is_separator c = false := by simp [is_separator, g_field_sep, hcomma, hc]
        simp only [split_commas, if_neg hcomma, List.countP_cons, hs]
        cases hsp : split_commas cs with
        | nil => simp [hsp] at ih2
        | cons f fs =>
            rw [hsp] at ih2
            simpa using ih2

/-- Two runs of the loop body of `parse_csv_line` that differ only in the
fields of the node not yet assigned still differ only there. -/
theorem parse_csv_line_step_fresh {β : Type} (atof : List Char → β) (s1 s2 : ParseState β)
    (i : Nat)
    (h : s1.line = s2.line ∧ s1.field_count = s2.field_count
      ∧ s1.field_first_pos = s2.field_first_pos
      ∧ (1 ≤ s1.field_count → s1.new_measure.time = s2.new_measure.time)
      ∧ (2 ≤ s1.field_count → s1.new_measure.magnitude = s2.new_measure.magnitude)
      ∧ (3 ≤ s1.field_count → s1.new_measure.velocity = s2.new_measure.velocity)) :
    (parse_csv_line_step atof s1 i).line = (parse_csv_line_step atof s2 i).line
    ∧ (parse_csv_line_step atof s1 i).field_count = (parse_csv_line_step atof s2 i).field_count
    ∧ (parse_csv_line_step atof s1 i).field_first_pos
        = (parse_csv_line_step atof s2 i).field_first_pos
    ∧ (1 ≤ (parse_csv_line_step atof s1 i).field_count →
        (parse_csv_line_step atof s1 i).new_measure.time
          = (parse_csv_line_step atof s2 i).new_measure.time)
    ∧ (2 ≤ (parse_csv_line_step atof s1 i).field_count →
        (parse_csv_line_step atof s1 i).new_measure.magnitude
          = (parse_csv_line_step atof s2 i).new_measure.magnitude)
    ∧ (3 ≤ (parse_csv_line_step atof s1 i).field_count →
        (parse_csv_line_step atof s1 i).new_measure.velocity
          = (parse_csv_line_step atof s2 i).new_measure.velocity) := by
  obtain ⟨hl, hc, hp, ht, hm, hv⟩ := h
  by_cases hsep : s1.line.getD i NUL = g_field_sep ∨ s1.line.getD i NUL = '\n'
  · have hsep2 : s2.line.getD i NUL = g_field_sep ∨ s2.line.getD i NUL = '\n' := hl ▸ hsep
    simp only [parse_csv_line_step, if_pos hsep, if_pos hsep2, ← hl, ← hc, ← hp, true_and]
    rcases hn : s1.field_count with _ | _ | _ | n
    · rw [hn] at ht hm hv
      simp
    · rw [hn] at ht hm hv
      simp [ht]
    · rw [hn] at ht hm hv
      simp [ht, hm]
    · rw [hn] at ht hm hv
      simp [ht, hm, hv]
  · have hsep2 : ¬ (s2.line.getD i NUL = g_field_sep ∨ s2.line.getD i NUL = '\n') := hl ▸ hsep
    simp only [parse_csv_line_step, if_neg hsep, if_neg hsep2]
    exact ⟨hl, hc, hp, ht, hm, hv⟩

/-- The measure `parse_csv_line` returns does not depend on the content of the
node before the loop: a node that is returned has its three fields
assigned. -/
theorem parse_csv_line_fresh {β : Type} (atof : List Char → β) (fresh1 fresh2 : Measure_t β)
    (line : List Char) :
    parse_csv_line atof fresh1 line = parse_csv_line atof fresh2 line := by
  have key : ∀ (l : List Nat) (s1 s2 : ParseState β),
      (s1.line = s2.line ∧ s1.field_count = s2.field_count
        ∧ s1.field_first_pos = s2.field_first_pos
        ∧ (1 ≤ s1.field_count → s1.new_measure.time = s2.new_measure.time)
        ∧ (2 ≤ s1.field_count → s1.new_measure.magnitude = s2.new_measure.magnitude)
        ∧ (3 ≤ s1.field_count → s1.new_measure.velocity = s2.new_measure.velocity)) →
      ((l.foldl (parse_csv_line_step atof) s1).field_count
          = (l.foldl (parse_csv_line_step atof) s2).field_count
        ∧ (3 ≤ (l.foldl (parse_csv_line_step atof) s1).field_count →
            (l.foldl (parse_csv_line_step atof) s1).new_measure
              = (l.foldl (parse_csv_line_step atof) s2).new_measure)) := by
    intro l
    induction l with
    | nil =>
        intro s1 s2 h
        obtain ⟨_, hc, _, ht, hm, hv⟩ := h
        refine ⟨hc, ?_⟩
        intro h3
        simp only [List.foldl_nil] at h3 ⊢
        cases hs1 : s1.new_measure
        cases hs2 : s2.new_measure
        rw [hs1, hs2] at ht hm hv
        simp only at ht hm hv
        rw [ht (by omega), hm (by omega), hv h3]
    | cons i l ih =>
        intro s1 s2 h
        simp only [List.foldl_cons]
        exact ih _ _ (parse_csv_line_step_fresh atof s1 s2 i h)
  have h := key (List.range (strlen line))
    { line := line, new_measure := fresh1, field_count := 0, field_first_pos := 0 }
    { line := line, new_measure := fresh2, field_count := 0, field_first_pos := 0 }
    ⟨rfl, rfl, rfl, by simp, by simp, by simp⟩
  obtain ⟨hc, hm⟩ := h
  unfold parse_csv_line parse_csv_line_loop
  simp only
  rw [← hc]
  by_cases h3 : ((List.range (strlen line)).foldl (parse_csv_line_step atof)
      { line := line, new_measure := fresh1, field_count := 0,
        field_first_pos := 0 }).field_count = g_number_of_fields
  · have h3b : 3 ≤ ((List.range (strlen line)).foldl (parse_csv_line_step atof)
        { line := line, new_measure := fresh1, field_count := 0,
          field_first_pos := 0 }).field_count := by
      rw [h3]
      decide
    simp [h3, hm h3b]
  · simp [h3]

/-- C12, amended: for every newline-terminated line (a text without newline
and NUL, followed by the newline), `parse_csv_line` returns a measure if and
only if the text consists of exactly three comma-separated fields, and
returns `NULL` when it has fewer or more than three. -/
theorem parse_csv_line_three_fields {β : Type} (atof : List Char → β) (fresh : Measure_t β)
    (content : List Char) (hnl : '\n' ∉ content) (hnul : NUL ∉ content) :
    ((parse_csv_line atof fresh (content ++ ['\n'])).isSome = true
        ↔ (split_commas content).length = 3)
    ∧ ((split_commas content).length ≠ 3 →
        parse_csv_line atof fresh (content ++ ['\n']) = none) := by
  have hnul2 : NUL ∉ content ++ ['\n'] := by
    intro h
    rcases List.mem_append.mp h with h1 | h1
    · exact hnul h1
    · have h2 : NUL = '\n' := by simpa using h1
      exact absurd h2 (by decide)
  have hcount : (c_string (content ++ ['\n'])).countP is_separator
      = (split_commas content).length := by
    rw [c_string_of_not_mem _ hnul2, split_commas_length content hnl, List.countP_append]
    have h1 : is_separator '\n' = true := by decide
    simp [List.countP_cons, h1]
  have hiff : (parse_csv_line atof fresh (content ++ ['\n'])).isSome = true
      ↔ (split_commas content).length = 3 := by
    rw [parse_csv_line_isSome_iff, hcount]
  refine ⟨hiff, ?_⟩
  intro hne
  cases hp : parse_csv_line atof fresh (content ++ ['\n']) with
  | none => rfl
  | some m => exact absurd (hiff.mp (by simp [hp])) hne

/-- Witness of C12 on the lines `1,2,3\n` (kept) and `1,2\n` (discarded). -/
theorem parse_csv_line_three_fields_witness :
    (((parse_csv_line (fun cs => (cs.length : ℚ)) ⟨0, 0, 0⟩
          (['1', ',', '2', ',', '3'] ++ ['\n'])).isSome = true
        ↔ (split_commas ['1', ',', '2', ',', '3']).length = 3)
      ∧ ((split_commas ['1', ',', '2', ',', '3']).length ≠ 3 →
          parse_csv_line (fun cs => (cs.length : ℚ)) ⟨0, 0, 0⟩
            (['1', ',', '2', ',', '3'] ++ ['\n']) = none))
    ∧ parse_csv_line (fun cs => (cs.length : ℚ)) ⟨0, 0, 0⟩ (['1', ',', '2'] ++ ['\n']) = none :=
  ⟨parse_csv_line_three_fields _ _ ['1', ',', '2', ',', '3'] (by decide) (by decide),
   (parse_csv_line_three_fields _ _ ['1', ',', '2'] (by decide) (by decide)).2 (by decide)⟩

/-- C12 as stated fails on lines that do not end with a newline: the line
`1,2,3` has three comma-separated fields and no alphabetic character, and
`parse_csv_line` returns `NULL`; the line `1,2,3,` has four and
`parse_csv_line` returns a measure. -/
theorem parse_csv_line_unterminated :
    ((split_commas ['1', ',', '2', ',', '3']).length = 3
      ∧ (∀ c ∈ ['1', ',', '2', ',', '3'], Char.isAlpha c = false)
      ∧ ∀ (atof : List Char → ℚ) (fresh : Measure_t ℚ),
          parse_csv_line atof fresh ['1', ',', '2', ',', '3'] = none)
    ∧ ((split_commas ['1', ',', '2', ',', '3', ',']).length = 4
      ∧ (∀ c ∈ ['1', ',', '2', ',', '3', ','], Char.isAlpha c = false)
      ∧ ∀ (atof : List Char → ℚ) (fresh : Measure_t ℚ),
          (parse_csv_line atof fresh ['1', ',', '2', ',', '3', ',']).isSome = true) := by
  refine ⟨⟨by decide, by decide, ?_⟩, ⟨by decide, by decide, ?_⟩⟩
  · intro atof fresh
    cases hp : parse_csv_line atof fresh ['1', ',', '2', ',', '3'] with
    | none => rfl
    | some m =>
        have h := (parse_csv_line_isSome_iff atof fresh ['1', ',', '2', ',', '3']).mp
          (by simp [hp])
        exact absurd h (by decide)
  · intro atof fresh
    exact (parse_csv_line_isSome_iff atof fresh ['1', ',', '2', ',', '3', ',']).mpr (by decide)

/-! ## The array behind the text -/

/-- The text of a C string ends at the NUL written behind it. -/
theorem c_string_append_NUL (text tail : List Char) :
    c_string (text ++ NUL :: tail) = c_string text := by
  unfold c_string
  induction text with
  | nil => simp [List.takeWhile_cons]
  | cons c cs ih =>
      by_cases h : (c != NUL) = true
      · simp only [List.cons_append, List.takeWhile_cons, h, if_true, ih]
      · simp [List.takeWhile_cons, h]

/-- The text of a C string is not longer than the list that holds it. -/
theorem strlen_le_length (text : List Char) : strlen text ≤ text.length := by
  unfold strlen c_string
  induction text with
  | nil => simp
  | cons c cs ih =>
      by_cases h : (c != NUL) = true
      · simp only [List.takeWhile_cons, h, if_true, List.length_cons]
        omega
      · simp [List.takeWhile_cons, h]

/-- The loop body of `parse_csv_line` at an index inside the text does the
same to the array that holds the text before a NUL as to the text alone. -/
theorem parse_csv_line_step_buffer {β : Type} (atof : List Char → β) (tail : List Char)
    (s1 s2 : ParseState β) (i : Nat) (hi : i < s2.line.length)
    (hline : s1.line = s2.line ++ NUL :: tail) (hm : s1.new_measure = s2.new_measure)
    (hc : s1.field_count = s2.field_count) (hp : s1.field_first_pos = s2.field_first_pos)
    (hle : s2.field_first_pos ≤ s2.line.length) :
    (parse_csv_line_step atof s1 i).line = (parse_csv_line_step atof s2 i).line ++ NUL :: tail
    ∧ (parse_csv_line_step atof s1 i).new_measure = (parse_csv_line_step atof s2 i).new_measure
    ∧ (parse_csv_line_step atof s1 i).field_count = (parse_csv_line_step atof s2 i).field_count
    ∧ (parse_csv_line_step atof s1 i).field_first_pos
        = (parse_csv_line_step atof s2 i).field_first_pos
    ∧ (parse_csv_line_step atof s2 i).field_first_pos
        ≤ (parse_csv_line_step atof s2 i).line.length
    ∧ (parse_csv_line_step atof s2 i).line.length = s2.line.length := by
  have hread : s1.line.getD i NUL = s2.line.getD i NUL := by
    rw [hline]
    exact List.getD_append _ _ _ _ hi
  by_cases hsep : s2.line.getD i NUL = g_field_sep ∨ s2.line.getD i NUL = '\n'
  · have hsep1 : s1.line.getD i NUL = g_field_sep ∨ s1.line.getD i NUL = '\n' := by
      rw [hread]
      exact hsep
    have hset : s1.line.set i NUL = s2.line.set i NUL ++ NUL :: tail := by
      rw [hline]
      exact List.set_append_left i NUL hi
    have hlen : (s2.line.set i NUL).length = s2.line.length := List.length_set _ _ _
    have harg : c_string ((s2.line.set i NUL ++ NUL :: tail).drop s1.field_first_pos)
        = c_string ((s2.line.set i NUL).drop s2.field_first_pos) := by
      rw [hp, List.drop_append_of_le_length (by rw [hlen]; exact hle), c_string_append_NUL]
    simp only [parse_csv_line_step, if_pos hsep, if_pos hsep1, hset, harg, hm, hc, hlen,
      true_and]
    exact ⟨hi, trivial⟩
  · have hsep1 : ¬ (s1.line.getD i NUL = g_field_sep ∨ s1.line.getD i NUL = '\n') := by
      rw [hread]
      exact hsep
    simp only [parse_csv_line_step, if_neg hsep, if_neg hsep1]
    exact ⟨hline, hm, hc, hp, hle, trivial⟩

/-- The loop of `parse_csv_line` after `n` rounds inside the text: the run on
the array that holds the text before a NUL and the run on the text alone
assign the same values, and the array of the first is that of the second
followed by what was behind the text. -/
theorem parse_csv_line_fold_buffer {β : Type} (atof : List Char → β) (fresh : Measure_t β)
    (text tail : List Char) (n : Nat) (hn : n ≤ text.length) :
    ((List.range n).foldl (parse_csv_line_step atof)
        { line := text ++ NUL :: tail, new_measure := fresh, field_count := 0,
          field_first_pos := 0 }).line
      = ((List.range n).foldl (parse_csv_line_step atof)
          { line := text, new_measure := fresh, field_count := 0,
            field_first_pos := 0 }).line ++ NUL :: tail
    ∧ ((List.range n).foldl (parse_csv_line_step atof)
        { line := text ++ NUL :: tail, new_measure := fresh, field_count := 0,
          field_first_pos := 0 }).new_measure
      = ((List.range n).foldl (parse_csv_line_step atof)
          { line := text, new_measure := fresh, field_count := 0,
            field_first_pos := 0 }).new_measure
    ∧ ((List.range n).foldl (parse_csv_line_step atof)
        { line := text ++ NUL :: tail, new_measure := fresh, field_count := 0,
          field_first_pos := 0 }).field_count
      = ((List.range n).foldl (parse_csv_line_step atof)
          { line := text, new_measure := fresh, field_count := 0,
            field_first_pos := 0 }).field_count
    ∧ ((List.range n).foldl (parse_csv_line_step atof)
        { line := text ++ NUL :: tail, new_measure := fresh, field_count := 0,
          field_first_pos := 0 }).field_first_pos
      = ((List.range n).foldl (parse_csv_line_step atof)
          { line := text, new_measure := fresh, field_count := 0,
            field_first_pos := 0 }).field_first_pos
    ∧ ((List.range n).foldl (parse_csv_line_step atof)
          { line := text, new_measure := fresh, field_count := 0,
            field_first_pos := 0 }).field_first_pos
        ≤ ((List.range n).foldl (parse_csv_line_step atof)
          { line := text, new_measure := fresh, field_count := 0,
            field_first_pos := 0 }).line.length
    ∧ ((List.range n).foldl (parse_csv_line_step atof)
          { line := text, new_measure := fresh, field_count := 0,
            field_first_pos := 0 }).line.length = text.length := by
  induction n with
  | zero => simp
  | succ n ih =>
      obtain ⟨h1, h2, h3, h4, h5, h6⟩ := ih (by omega)
      rw [List.range_succ, List.foldl_append, List.foldl_append, List.foldl_cons,
        List.foldl_nil, List.foldl_cons, List.foldl_nil]
      generalize (List.range n).foldl (parse_csv_line_step atof)
        { line := text ++ NUL :: tail, new_measure := fresh, field_count := 0,
          field_first_pos := 0 } = s1 at h1 h2 h3 h4 ⊢
      generalize (List.range n).foldl (parse_csv_line_step atof)
        { line := text, new_measure := fresh, field_count := 0,
          field_first_pos := 0 } = s2 at h1 h2 h3 h4 h5 h6 ⊢
      have hi : n < s2.line.length := by omega
      obtain ⟨k1, k2, k3, k4, k5, k6⟩ :=
        parse_csv_line_step_buffer atof tail s1 s2 n hi h1 h2 h3 h4 h5
      exact ⟨k1, k2, k3, k4, k5, by rw [k6, h6]⟩

/-- The function `parse_csv_line` returns on the array that holds a text
before a NUL what it returns on the text alone, and leaves behind the text
what the array held there. -/
theorem parse_csv_line_buffer {β : Type} (atof : List Char → β) (fresh : Measure_t β)
    (text tail : List Char) :
    parse_csv_line atof fresh (text ++ NUL :: tail) = parse_csv_line atof fresh text
    ∧ (parse_csv_line_loop atof fresh (text ++ NUL :: tail)).line
        = (parse_csv_line_loop atof fresh text).line ++ NUL :: tail := by
  have hlen : strlen (text ++ NUL :: tail) = strlen text := by
    unfold strlen
    rw [c_string_append_NUL]
  obtain ⟨h1, h2, h3, _, _, _⟩ :=
    parse_csv_line_fold_buffer atof fresh text tail (strlen text) (strlen_le_length text)
  refine ⟨?_, ?_⟩
  · unfold parse_csv_line parse_csv_line_loop
    simp only [hlen, h2, h3]
  · unfold parse_csv_line_loop
    simp only [hlen, h1]

/-! ## Filtering the lines -/

/-- Once `valid` is 0 the loop of `valid_characters` stops and returns 0. -/
theorem valid_characters_loop_false (isalpha : Char → Bool) (l : List Char) :
    valid_characters_loop isalpha l false = some false := by
  cases l with
  | nil => simp [valid_characters_loop]
  | cons c l => simp [valid_characters_loop]

/-- On a text without newline followed by a newline, the loop of
`valid_characters` returns 1 exactly when no character of the text is
alphabetic, whatever the array holds behind the newline. -/
theorem valid_characters_loop_newline (isalpha : Char → Bool) (content post : List Char)
    (hnl : '\n' ∉ content) :
    valid_characters_loop isalpha (content ++ '\n' :: post) true
      = some (!content.any isalpha) := by
  induction content with
  | nil => simp [valid_characters_loop]
  | cons c cs ih =>
      have hc : c ≠ '\n' := fun e => hnl (e ▸ List.mem_cons_self c cs)
      have hcs : '\n' ∉ cs := fun h => hnl (List.mem_cons_of_mem c h)
      by_cases ha : isalpha c = true
      · simp [valid_characters_loop, hc, ha, valid_characters_loop_false]
      · simp [valid_characters_loop, hc, ha, ih hcs]

/-- The array after `fgets` stored a newline-terminated line: the text, the
newline, a NUL and the bytes left from before. -/
theorem fgets_store_newline (line content : List Char) :
    fgets_store line (content ++ ['\n'])
      = content ++ '\n' :: NUL :: line.drop (content.length + 2) := by
  simp [fgets_store]

/-- One round of the loop of `read_csv_file` on a newline-terminated line: a
line with a letter is skipped and the array keeps it; a line without letter
is given to `parse_csv_line`, which overwrites its separators, and the
measure returned, if any, is appended. -/
theorem read_csv_file_loop_newline {β : Type} (isalpha : Char → Bool)
    (atof : List Char → β) (fresh : Measure_t β) (content : List Char)
    (hnl : '\n' ∉ content) (rest : List (List Char)) (line : List Char)
    (measures_list : List (Measure_t β)) :
    read_csv_file_loop isalpha atof fresh ((content ++ ['\n']) :: rest) line measures_list
      = read_csv_file_loop isalpha atof fresh rest
          (if content.any isalpha then
            fgets_store line (content ++ ['\n'])
          else
            (parse_csv_line_loop atof fresh (content ++ ['\n'])).line
              ++ NUL :: line.drop (content.length + 2))
          (measures_list ++ (line_measure isalpha atof fresh content).toList) := by
  have hv : valid_characters isalpha (fgets_store line (content ++ ['\n']))
      = some (!content.any isalpha) := by
    rw [fgets_store_newline]
    exact valid_characters_loop_newline isalpha content _ hnl
  have hb := parse_csv_line_buffer atof fresh (content ++ ['\n'])
    (line.drop (content.length + 2))
  have hstore : fgets_store line (content ++ ['\n'])
      = (content ++ ['\n']) ++ NUL :: line.drop (content.length + 2) := by
    simp [fgets_store]
  by_cases ha : content.any isalpha = true
  · simp only [read_csv_file_loop, hv, ha, line_measure, if_true, Bool.not_true,
      Bool.false_eq_true, if_false, Option.toList_none, List.append_nil]
  · have ha2 : content.any isalpha = false := by simpa using ha
    simp only [read_csv_file_loop, hv, ha2, line_measure, Bool.not_false, if_true,
      Bool.false_eq_true, if_false]
    rw [hstore, hb.1, hb.2]
    cases parse_csv_line atof fresh (content ++ ['\n']) with
    | none => simp
    | some m => simp

/-- On newline-terminated lines the loop of `read_csv_file` appends, in the
order of the lines, what each line adds. -/
theorem read_csv_file_loop_newlines {β : Type} (isalpha : Char → Bool)
    (atof : List Char → β) (fresh : Measure_t β) (contents : List (List Char))
    (hnl : ∀ c ∈ contents, '\n' ∉ c) (line : List Char)
    (measures_list : List (Measure_t β)) :
    read_csv_file_loop isalpha atof fresh (contents.map (fun c => c ++ ['\n'])) line
        measures_list
      = some (measures_list ++ contents.filterMap (line_measure isalpha atof fresh)) := by
  induction contents generalizing line measures_list with
  | nil => simp [read_csv_file_loop]
  | cons content rest ih =>
      have h1 : '\n' ∉ content := hnl content (List.mem_cons_self content rest)
      have h2 : ∀ c ∈ rest, '\n' ∉ c := fun c hc => hnl c (List.mem_cons_of_mem content hc)
      rw [List.map_cons, read_csv_file_loop_newline isalpha atof fresh content h1, ih h2]
      cases hm : line_measure isalpha atof fresh content with
      | none => simp [List.filterMap_cons, hm]
      | some m => simp [List.filterMap_cons, hm]

/-- A call of `fgets` that finds a newline before the array is full returns
the text up to the newline, and the next call starts behind it. -/
theorem fgets_lines_aux_newline (content rest text : List Char) (hnl : '\n' ∉ content)
    (hlen : text.length + content.length + 1 < g_line_size) :
    fgets_lines_aux (content ++ '\n' :: rest) text
      = (text ++ content ++ ['\n']) :: fgets_lines_aux rest [] := by
  induction content generalizing text with
  | nil => simp [fgets_lines_aux]
  | cons c cs ih =>
      have hc : c ≠ '\n' := fun e => hnl (e ▸ List.mem_cons_self c cs)
      have hcs : '\n' ∉ cs := fun h => hnl (List.mem_cons_of_mem c h)
      have hfull : ¬ (c = '\n' ∨ text.length + 1 = g_line_size - 1) := by
        simp only [g_line_size, List.length_cons] at hlen ⊢
        intro h
        rcases h with h | h
        · exact hc h
        · omega
      have hlen2 : (text ++ [c]).length + cs.length + 1 < g_line_size := by
        simp only [List.length_append, List.length_cons, List.length_nil] at hlen ⊢
        omega
      have hstep : fgets_lines_aux (c :: cs ++ '\n' :: rest) text
          = fgets_lines_aux (cs ++ '\n' :: rest) (text ++ [c]) := by
        simp only [List.cons_append, fgets_lines_aux, if_neg hfull]
        rfl
      rw [hstep, ih (text ++ [c]) hcs hlen2]
      simp

/-- On a file made of newline-terminated lines shorter than the array, the
calls of `fgets` return the lines. -/
theorem fgets_lines_newlines (contents : List (List Char))
    (h : ∀ c ∈ contents, '\n' ∉ c ∧ c.length + 1 < g_line_size) :
    fgets_lines ((contents.map (fun c => c ++ ['\n'])).flatten)
      = contents.map (fun c => c ++ ['\n']) := by
  induction contents with
  | nil => simp [fgets_lines, fgets_lines_aux]
  | cons content rest ih =>
      have h1 := h content (List.mem_cons_self content rest)
      have h2 : ∀ c ∈ rest, '\n' ∉ c ∧ c.length + 1 < g_line_size :=
        fun c hc => h c (List.mem_cons_of_mem content hc)
      have ih2 := ih h2
      unfold fgets_lines at ih2 ⊢
      simp only [List.map_cons, List.flatten_cons, List.append_assoc, List.singleton_append]
      rw [fgets_lines_aux_newline content _ [] h1.1 (by simpa using h1.2), ih2]
      simp

/-- C13: for every newline-terminated line, `valid_characters` returns 0, and
`read_csv_file` skips the line, if and only if some character of the line
before the newline is alphabetic, whatever the array holds behind the
newline; a line with no alphabetic character is passed to `parse_csv_line`,
and the measure it returns on the line, if any, is appended to the list. -/
theorem valid_characters_newline_terminated (isalpha : Char → Bool) (content : List Char)
    (hnl : '\n' ∉ content) :
    (∀ post : List Char,
        valid_characters isalpha (content ++ '\n' :: post) = some false
          ↔ ∃ c ∈ content, isalpha c = true)
    ∧ (∀ post : List Char,
        valid_characters isalpha (content ++ '\n' :: post) = some true
          ↔ ∀ c ∈ content, isalpha c = false)
    ∧ (∀ {β : Type} (atof : List Char → β) (fresh : Measure_t β) (line : List Char)
        (measures_list : List (Measure_t β)),
        (∃ c ∈ content, isalpha c = true) →
        read_csv_file_loop isalpha atof fresh [content ++ ['\n']] line measures_list
          = some measures_list)
    ∧ (∀ {β : Type} (atof : List Char → β) (fresh : Measure_t β) (line : List Char)
        (measures_list : List (Measure_t β)),
        (∀ c ∈ content, isalpha c = false) →
        read_csv_file_loop isalpha atof fresh [content ++ ['\n']] line measures_list
          = some (measures_list ++ (parse_csv_line atof fresh (content ++ ['\n'])).toList))
    ∧ (∀ {β : Type} (atof : List Char → β) (fresh : Measure_t β) (rest : List (List Char))
        (line : List Char) (measures_list : List (Measure_t β)),
        (∃ c ∈ content, isalpha c = true) →
        read_csv_file_loop isalpha atof fresh ((content ++ ['\n']) :: rest) line measures_list
          = read_csv_file_loop isalpha atof fresh rest (fgets_store line (content ++ ['\n']))
              measures_list)
    ∧ (∀ {β : Type} (atof : List Char → β) (fresh : Measure_t β) (rest : List (List Char))
        (line : List Char) (measures_list : List (Measure_t β)),
        (∀ c ∈ content, isalpha c = false) →
        read_csv_file_loop isalpha atof fresh ((content ++ ['\n']) :: rest) line measures_list
          = read_csv_file_loop isalpha atof fresh rest
              ((parse_csv_line_loop atof fresh (content ++ ['\n'])).line
                ++ NUL :: line.drop (content.length + 2))
              (measures_list ++ (parse_csv_line atof fresh (content ++ ['\n'])).toList))
    ∧ (∀ {β : Type} (atof : List Char → β) (fresh : Measure_t β) (stack : Nat → Char),
        content.length + 1 < g_line_size →
        read_csv_file isalpha atof fresh stack (content ++ ['\n'])
          = some (if content.any isalpha then []
              else (parse_csv_line atof fresh (content ++ ['\n'])).toList)) := by
  have hv : ∀ post : List Char,
      valid_characters isalpha (content ++ '\n' :: post) = some (!content.any isalpha) :=
    fun post => valid_characters_loop_newline isalpha content post hnl
  have hyes : (∃ c ∈ content, isalpha c = true) → content.any isalpha = true := by
    intro h
    simpa using h
  have hno : (∀ c ∈ content, isalpha c = false) → content.any isalpha = false := by
    intro h
    simpa using h
  refine ⟨?_, ?_, ?_, ?_, ?_, ?_, ?_⟩
  · intro post
    rw [hv post]
    simp
  · intro post
    rw [hv post]
    simp
  · intro β atof fresh line measures_list hex
    rw [read_csv_file_loop_newline isalpha atof fresh content hnl]
    simp [read_csv_file_loop, line_measure, hyes hex]
  · intro β atof fresh line measures_list hall
    rw [read_csv_file_loop_newline isalpha atof fresh content hnl]
    simp [read_csv_file_loop, line_measure, hno hall]
  · intro β atof fresh rest line measures_list hex
    rw [read_csv_file_loop_newline isalpha atof fresh content hnl]
    simp [line_measure, hyes hex]
  · intro β atof fresh rest line measures_list hall
    rw [read_csv_file_loop_newline isalpha atof fresh content hnl]
    simp [line_measure, hno hall]
  · intro β atof fresh stack hlen
    have hlines : fgets_lines (content ++ ['\n']) = [content ++ ['\n']] := by
      have h := fgets_lines_newlines [content] (by simpa using ⟨hnl, hlen⟩)
      simpa using h
    unfold read_csv_file
    rw [hlines, read_csv_file_loop_newline isalpha atof fresh content hnl]
    by_cases ha : content.any isalpha = true
    · simp [read_csv_file_loop, line_measure, ha]
    · have ha2 : content.any isalpha = false := by simpa using ha
      simp [read_csv_file_loop, line_measure, ha2]

/-- Witness of C13 on the lines `t,m,v\n`, which is skipped, and `1,2,3\n`,
which is parsed and gives a node: first `valid_characters` on the array that
holds the line before a NUL and bytes of an earlier line, then
`read_csv_file` on the file that holds the line alone, the text of a field
standing for its `atof` value and the array holding blanks at first. -/
theorem valid_characters_newline_terminated_witness :
    valid_characters Char.isAlpha (['t', ',', 'm', ',', 'v'] ++ '\n' :: [NUL, '7', 'x'])
      = some false
    ∧ valid_characters Char.isAlpha (['1', ',', '2', ',', '3'] ++ '\n' :: [NUL, '7', 'x'])
      = some true
    ∧ read_csv_file Char.isAlpha (fun cs => cs) ⟨[], [], []⟩ (fun _ => ' ')
        (['t', ',', 'm', ',', 'v'] ++ ['\n']) = some []
    ∧ read_csv_file Char.isAlpha (fun cs => cs) ⟨[], [], []⟩ (fun _ => ' ')
        (['1', ',', '2', ',', '3'] ++ ['\n'])
      = some [{ time := ['1'], magnitude := ['2'], velocity := ['3'] }] :=
  ⟨((valid_characters_newline_terminated Char.isAlpha ['t', ',', 'm', ',', 'v']
      (by decide)).1 [NUL, '7', 'x']).mpr ⟨'t', by decide, by decide⟩,
   ((valid_characters_newline_terminated Char.isAlpha ['1', ',', '2', ',', '3']
      (by decide)).2.1 [NUL, '7', 'x']).mpr (by decide),
   ((valid_characters_newline_terminated Char.isAlpha ['t', ',', 'm', ',', 'v']
      (by decide)).2.2.2.2.2.2 (fun cs => cs) ⟨[], [], []⟩ (fun _ => ' ')
      (by decide)).trans rfl,
   ((valid_characters_newline_terminated Char.isAlpha ['1', ',', '2', ',', '3']
      (by decide)).2.2.2.2.2.2 (fun cs => cs) ⟨[], [], []⟩ (fun _ => ' ')
      (by decide)).trans rfl⟩

/-! ## The list of measures -/

/-- When `valid_characters` stays inside the array at every call, the loop
of `read_csv_file` appends to the list built before the measures of the
accepted lines, in the order of the lines. -/
theorem read_csv_file_loop_eq {β : Type} (isalpha : Char → Bool) (atof : List Char → β)
    (fresh : Measure_t β) (lines : List (List Char)) (line : List Char)
    (hdef : ∀ b ∈ line_buffers isalpha atof fresh lines line,
      valid_characters isalpha b ≠ none)
    (measures_list : List (Measure_t β)) :
    read_csv_file_loop isalpha atof fresh lines line measures_list
      = some (measures_list
          ++ (line_buffers isalpha atof fresh lines line).filterMap
              (accepted_measure isalpha atof fresh)) := by
  induction lines generalizing line measures_list with
  | nil => simp [read_csv_file_loop, line_buffers]
  | cons text rest ih =>
      simp only [line_buffers, List.mem_cons, forall_eq_or_imp] at hdef
      obtain ⟨hline, hrest⟩ := hdef
      cases hv : valid_characters isalpha (fgets_store line text) with
      | none => exact absurd hv hline
      | some valid =>
          cases valid with
          | false =>
              have hafter : line_after isalpha atof fresh (fgets_store line text)
                  = fgets_store line text := by
                simp [line_after, hv]
              rw [hafter] at hrest
              simp [read_csv_file_loop, line_buffers, hv, hafter, ih _ hrest,
                accepted_measure, List.filterMap_cons]
          | true =>
              have hafter : line_after isalpha atof fresh (fgets_store line text)
                  = (parse_csv_line_loop atof fresh (fgets_store line text)).line := by
                simp [line_after, hv]
              rw [hafter] at hrest
              cases hp : parse_csv_line atof fresh (fgets_store line text) with
              | none =>
                  simp [read_csv_file_loop, line_buffers, hv, hp, hafter, ih _ hrest,
                    accepted_measure, List.filterMap_cons]
              | some m =>
                  simp [read_csv_file_loop, line_buffers, hv, hp, hafter, ih _ hrest,
                    accepted_measure, List.filterMap_cons]

/-- When some call of `valid_characters` reads past the array, the loop of
`read_csv_file` has no result. -/
theorem read_csv_file_loop_none {β : Type} (isalpha : Char → Bool) (atof : List Char → β)
    (fresh : Measure_t β) (lines : List (List Char)) (line : List Char)
    (hundef : ∃ b ∈ line_buffers isalpha atof fresh lines line,
      valid_characters isalpha b = none)
    (measures_list : List (Measure_t β)) :
    read_csv_file_loop isalpha atof fresh lines line measures_list = none := by
  induction lines generalizing line measures_list with
  | nil =>
      obtain ⟨b, hb, _⟩ := hundef
      simp [line_buffers] at hb
  | cons text rest ih =>
      cases hv : valid_characters isalpha (fgets_store line text) with
      | none => simp [read_csv_file_loop, hv]
      | some valid =>
          have hrest : ∃ b ∈ line_buffers isalpha atof fresh rest
              (line_after isalpha atof fresh (fgets_store line text)),
              valid_characters isalpha b = none := by
            obtain ⟨b, hb, hn⟩ := hundef
            simp only [line_buffers, List.mem_cons] at hb
            rcases hb with rfl | hb2
            · rw [hv] at hn
              simp at hn
            · exact ⟨b, hb2, hn⟩
          cases valid with
          | false =>
              have hafter : line_after isalpha atof fresh (fgets_store line text)
                  = fgets_store line text := by
                simp [line_after, hv]
              rw [hafter] at hrest
              simp [read_csv_file_loop, hv, ih _ hrest]
          | true =>
              have hafter : line_after isalpha atof fresh (fgets_store line text)
                  = (parse_csv_line_loop atof fresh (fgets_store line text)).line := by
                simp [line_after, hv]
              rw [hafter] at hrest
              cases hp : parse_csv_line atof fresh (fgets_store line text) with
              | none => simp [read_csv_file_loop, hv, hp, ih _ hrest]
              | some m => simp [read_csv_file_loop, hv, hp, ih _ hrest]

/-- C14: the list built by `read_csv_file` holds, in file order, exactly the
measures `parse_csv_line` returned for the lines that passed
`valid_characters`: for every file, the `i`-th node is the measure of the
`i`-th accepted line and rejected lines add no node.  The list is built
unless a call of `valid_characters` reads past the array; on a file of
newline-terminated lines shorter than the array it is built, and it holds
the measures `parse_csv_line` returns on the lines without letter. -/
theorem read_csv_file_eq_accepted {β : Type} (isalpha : Char → Bool) (atof : List Char → β)
    (fresh : Measure_t β) (stack : Nat → Char) :
    (∀ csv_file : List Char,
        (∀ b ∈ line_buffers isalpha atof fresh (fgets_lines csv_file)
            ((List.range g_line_size).map stack), valid_characters isalpha b ≠ none) →
        read_csv_file isalpha atof fresh stack csv_file
          = some ((line_buffers isalpha atof fresh (fgets_lines csv_file)
              ((List.range g_line_size).map stack)).filterMap
                (accepted_measure isalpha atof fresh)))
    ∧ (∀ csv_file : List Char,
        (∃ b ∈ line_buffers isalpha atof fresh (fgets_lines csv_file)
            ((List.range g_line_size).map stack), valid_characters isalpha b = none) →
        read_csv_file isalpha atof fresh stack csv_file = none)
    ∧ (∀ contents : List (List Char),
        (∀ c ∈ contents, '\n' ∉ c ∧ c.length + 1 < g_line_size) →
        read_csv_file isalpha atof fresh stack
            ((contents.map (fun c => c ++ ['\n'])).flatten)
          = some (contents.filterMap (line_measure isalpha atof fresh))) := by
  refine ⟨?_, ?_, ?_⟩
  · intro csv_file hdef
    unfold read_csv_file
    rw [read_csv_file_loop_eq isalpha atof fresh _ _ hdef []]
    simp
  · intro csv_file hundef
    exact read_csv_file_loop_none isalpha atof fresh _ _ hundef []
  · intro contents h
    unfold read_csv_file
    rw [fgets_lines_newlines contents h,
      read_csv_file_loop_newlines isalpha atof fresh contents (fun c hc => (h c hc).1)]
    simp

/-- Witness of C14, the text of a field standing for its `atof` value and the
array holding blanks at first.  On the file `a123456789\n1,2,3,` the first
line is skipped and the second, which has no newline, is validated against
the bytes `789\n` the first left in the array, and gives the node
`(1, 2, 3)`.  On the file `t,m,v\n0,0,30\n1,2\n0.1,0.5,29\n` the header and
the two-field line add no node and the two other lines add theirs in file
order. -/
theorem read_csv_file_eq_accepted_witness :
    read_csv_file Char.isAlpha (fun cs => cs) ⟨[], [], []⟩ (fun _ => ' ')
        ['a', '1', '2', '3', '4', '5', '6', '7', '8', '9', '\n', '1', ',', '2', ',', '3', ',']
      = some [{ time := ['1'], magnitude := ['2'], velocity := ['3'] }]
    ∧ read_csv_file Char.isAlpha (fun cs => cs) ⟨[], [], []⟩ (fun _ => ' ')
        (([['t', ',', 'm', ',', 'v'], ['0', ',', '0', ',', '3', '0'], ['1', ',', '2'],
            ['0', '.', '1', ',', '0', '.', '5', ',', '2', '9']].map
          (fun c => c ++ ['\n'])).flatten)
      = some [{ time := ['0'], magnitude := ['0'], velocity := ['3', '0'] },
              { time := ['0', '.', '1'], magnitude := ['0', '.', '5'],
                velocity := ['2', '9'] }] :=
  ⟨((read_csv_file_eq_accepted Char.isAlpha (fun cs => cs) ⟨[], [], []⟩ (fun _ => ' ')).1
      ['a', '1', '2', '3', '4', '5', '6', '7', '8', '9', '\n', '1', ',', '2', ',', '3', ',']
      (by decide)).trans rfl,
   ((read_csv_file_eq_accepted Char.isAlpha (fun cs => cs) ⟨[], [], []⟩ (fun _ => ' ')).2.2
      [['t', ',', 'm', ',', 'v'], ['0', ',', '0', ',', '3', '0'], ['1', ',', '2'],
        ['0', '.', '1', ',', '0', '.', '5', ',', '2', '9']]
      (by decide)).trans rfl⟩

end Photmass
